import Mathlib

/-!
Verification of the capability registry in `src/capabilities.py`.

The Python module defines three layers:
  * `CapabilityType` — a closed string enumeration of capability kinds;
  * `Capability` / `AgentCapabilities` — data holders with name/kind lookup;
  * `CapabilityRegistry` — a dict from agent id to `AgentCapabilities`.

Python dicts preserve insertion order, and assigning to an existing key
keeps the key's original position; we embed the registry's dict as an
association list with an in-place insert (`dictInsert`).  Mutation of a
registered `AgentCapabilities` object through an alias is modelled with an
explicit heap (`HeapRegistry` below).
-/

/-- `CapabilityType` from `src/capabilities.py`: closed enumeration of the
kinds of capability an agent can expose. -/
inductive CapabilityType where
  | WEATHER
  | FILESYSTEM
  | COPYWRITING
  | REVIEW
  | ANALYSIS
  | ORCHESTRATION
  deriving DecidableEq, Repr

/-- The `str` value of each enum member (`CapabilityType.WEATHER = "weather"` etc.). -/
def CapabilityType.value : CapabilityType → String
  | .WEATHER => "weather"
  | .FILESYSTEM => "filesystem"
  | .COPYWRITING => "copywriting"
  | .REVIEW => "review"
  | .ANALYSIS => "analysis"
  | .ORCHESTRATION => "orchestration"

/-- `Capability` dataclass: one named ability.  `parameters` is a mapping
from parameter name to a type-hint string (the spec's reading of
`Dict[str, Any]`); `required_permissions` is an ordered list of strings. -/
structure Capability where
  name : String
  capability_type : CapabilityType
  description : String
  parameters : List (String × String) := []
  required_permissions : List String := []
  deriving DecidableEq, Repr

/-- `AgentCapabilities` dataclass: the ordered capability list of one agent. -/
structure AgentCapabilities where
  agent_name : String
  agent_id : String
  capabilities : List Capability := []
  version : String := "1.0"
  deriving DecidableEq, Repr

/-- `AgentCapabilities.add_capability`: appends to the capability list. -/
def AgentCapabilities.add_capability (a : AgentCapabilities) (c : Capability) :
    AgentCapabilities :=
  { a with capabilities := a.capabilities ++ [c] }

/-- `AgentCapabilities.get_capability`: first capability whose `name` equals
the argument (`next((c for c in self.capabilities if c.name == name), None)`). -/
def AgentCapabilities.get_capability (a : AgentCapabilities) (name : String) :
    Option Capability :=
  a.capabilities.find? (fun c => c.name == name)

/-- `AgentCapabilities.get_capabilities_by_type`: list comprehension keeping
capabilities whose `capability_type` equals the argument. -/
def AgentCapabilities.get_capabilities_by_type (a : AgentCapabilities)
    (cap_type : CapabilityType) : List Capability :=
  a.capabilities.filter (fun c => decide (c.capability_type = cap_type))

/-- JSON-like values: the codomain of `to_dict` in the Python module. -/
inductive JsonVal where
  | str (s : String)
  | arr (items : List JsonVal)
  | obj (fields : List (String × JsonVal))

/-- Key lookup in a `JsonVal.obj` field list (first match, like a dict). -/
def JsonVal.lookupKey : List (String × JsonVal) → String → Option JsonVal
  | [], _ => none
  | (k, v) :: rest, key => if k == key then some v else JsonVal.lookupKey rest key

/-- `Capability.to_dict`: dictionary with keys `name`, `type` (the kind's
string tag), `description`, `parameters`, `required_permissions`. -/
def Capability.to_dict (c : Capability) : JsonVal :=
  .obj [
    ("name", .str c.name),
    ("type", .str c.capability_type.value),
    ("description", .str c.description),
    ("parameters", .obj (c.parameters.map (fun p => (p.1, .str p.2)))),
    ("required_permissions", .arr (c.required_permissions.map .str))
  ]

/-- `AgentCapabilities.to_dict`: agent name, id, version, and the
capability dictionaries in insertion order. -/
def AgentCapabilities.to_dict (a : AgentCapabilities) : JsonVal :=
  .obj [
    ("agent_name", .str a.agent_name),
    ("agent_id", .str a.agent_id),
    ("version", .str a.version),
    ("capabilities", .arr (a.capabilities.map Capability.to_dict))
  ]

/-- `CapabilityRegistry`: its `agents` dict embedded as an association list
in insertion order. -/
structure CapabilityRegistry where
  agents : List (String × AgentCapabilities) := []
  deriving Repr

/-- Python dict assignment `d[k] = v`: overwrite in place when the key is
present (keeping its position), otherwise append at the end. -/
def dictInsert (k : String) (v : AgentCapabilities) :
    List (String × AgentCapabilities) → List (String × AgentCapabilities)
  | [] => [(k, v)]
  | (k', v') :: rest =>
    if k' == k then (k, v) :: rest else (k', v') :: dictInsert k v rest

/-- `CapabilityRegistry.register_agent`: `self.agents[ac.agent_id] = ac`
(the registration notice printed to stdout is not modelled). -/
def CapabilityRegistry.register_agent (r : CapabilityRegistry)
    (ac : AgentCapabilities) : CapabilityRegistry :=
  { r with agents := dictInsert ac.agent_id ac r.agents }

/-- `CapabilityRegistry.get_agent_capabilities`: `self.agents.get(agent_id)`. -/
def CapabilityRegistry.get_agent_capabilities (r : CapabilityRegistry)
    (agent_id : String) : Option AgentCapabilities :=
  (r.agents.find? (fun p => p.1 == agent_id)).map Prod.snd

/-- `CapabilityRegistry.get_all_capabilities_by_type`: scan agents in order,
keep an entry only when the agent's matching-capability list is nonempty. -/
def CapabilityRegistry.get_all_capabilities_by_type (r : CapabilityRegistry)
    (cap_type : CapabilityType) : List (String × List Capability) :=
  r.agents.filterMap (fun p =>
    let caps := p.2.get_capabilities_by_type cap_type
    if caps.isEmpty then none else some (p.1, caps))

/-- `CapabilityRegistry.can_agent_perform`: false for an unknown agent,
otherwise whether `get_capability` finds the name. -/
def CapabilityRegistry.can_agent_perform (r : CapabilityRegistry)
    (agent_id capability_name : String) : Bool :=
  match r.get_agent_capabilities agent_id with
  | none => false
  | some ac => (ac.get_capability capability_name).isSome

/-- `CapabilityRegistry.find_agent_for_capability`: linear scan in dict
order, first agent whose `get_capability` returns a value. -/
def CapabilityRegistry.find_agent_for_capability (r : CapabilityRegistry)
    (capability_name : String) : Option String :=
  (r.agents.find? (fun p => (p.2.get_capability capability_name).isSome)).map Prod.fst

/-- Well-formedness of registry states: the dict's keys are distinct.  Every
state reachable from the empty registry through `register_agent` satisfies
this, because Python dicts cannot hold a key twice. -/
def CapabilityRegistry.WF (r : CapabilityRegistry) : Prop :=
  (r.agents.map Prod.fst).Nodup

/-! ### Heap model for aliasing

Python variables hold references to heap objects; `register_agent` stores
the caller's `AgentCapabilities` reference, not a copy, so an
`add_capability` on the caller's object is visible through the registry.
We make this explicit: the heap maps reference numbers to
`AgentCapabilities` values, and the registry dict maps agent ids to
reference numbers. -/

/-- Heap of `AgentCapabilities` objects, addressed by reference number. -/
structure Heap where
  cells : List (Nat × AgentCapabilities)

/-- Dereference a heap cell. -/
def Heap.deref (h : Heap) (ref : Nat) : Option AgentCapabilities :=
  (h.cells.find? (fun p => p.1 == ref)).map Prod.snd

/-- `obj.add_capability(c)` performed on the heap object behind `ref`:
in-place mutation of that one cell. -/
def Heap.add_capability_at (h : Heap) (ref : Nat) (c : Capability) : Heap :=
  ⟨h.cells.map (fun p => if p.1 == ref then (p.1, p.2.add_capability c) else p)⟩

/-- A registry whose `agents` dict holds references into a shared heap. -/
structure HeapRegistry where
  agents : List (String × Nat)

/-- `get_agent_capabilities` in the heap model: dict lookup, then deref. -/
def HeapRegistry.get_agent_capabilities (r : HeapRegistry) (h : Heap)
    (agent_id : String) : Option AgentCapabilities :=
  match (r.agents.find? (fun p => p.1 == agent_id)).map Prod.snd with
  | none => none
  | some ref => h.deref ref

/-- `can_agent_perform` in the heap model. -/
def HeapRegistry.can_agent_perform (r : HeapRegistry) (h : Heap)
    (agent_id capability_name : String) : Bool :=
  match r.get_agent_capabilities h agent_id with
  | none => false
  | some ac => (ac.get_capability capability_name).isSome

/-! ### Decoder for the structured form

Modelled from the spec: the source has no decoder; the spec's round-trip
property ("decoding the structured form reproduces the same
name/kind/description/parameters/permissions for every capability") needs
an inverse of `to_dict`, built here field by field from the documented
keys `name`, `type`, `description`, `parameters`, `required_permissions`. -/

/-- Modelled from the spec: inverse of `CapabilityType.value` (the kind's
string tag back to the enumeration member). -/
def CapabilityType.ofValue : String → Option CapabilityType
  | "weather" => some .WEATHER
  | "filesystem" => some .FILESYSTEM
  | "copywriting" => some .COPYWRITING
  | "review" => some .REVIEW
  | "analysis" => some .ANALYSIS
  | "orchestration" => some .ORCHESTRATION
  | _ => none

/-- Decode a `JsonVal` that should be a string. -/
def JsonVal.asStr : JsonVal → Option String
  | .str s => some s
  | _ => none

/-- Decode the `parameters` object back into name/type-hint pairs. -/
def decodeParams : List (String × JsonVal) → Option (List (String × String))
  | [] => some []
  | (k, .str v) :: rest => (decodeParams rest).map (fun r => (k, v) :: r)
  | _ => none

/-- Decode a string array (the `required_permissions` list). -/
def decodeStrList : List JsonVal → Option (List String)
  | [] => some []
  | .str s :: rest => (decodeStrList rest).map (fun r => s :: r)
  | _ => none

/-- Modelled from the spec: decode one capability dictionary. -/
def decodeCapability (j : JsonVal) : Option Capability :=
  match j with
  | .obj fields =>
    match JsonVal.lookupKey fields "name", JsonVal.lookupKey fields "type",
        JsonVal.lookupKey fields "description",
        JsonVal.lookupKey fields "parameters",
        JsonVal.lookupKey fields "required_permissions" with
    | some (.str n), some (.str t), some (.str d), some (.obj ps), some (.arr perms) =>
      match CapabilityType.ofValue t, decodeParams ps, decodeStrList perms with
      | some ty, some params, some permList =>
        some ⟨n, ty, d, params, permList⟩
      | _, _, _ => none
    | _, _, _, _, _ => none
  | _ => none

/-- Decode an array of capability dictionaries. -/
def decodeCapList : List JsonVal → Option (List Capability)
  | [] => some []
  | j :: rest =>
    match decodeCapability j, decodeCapList rest with
    | some c, some cs => some (c :: cs)
    | _, _ => none

/-- Modelled from the spec: decode the structured form of a whole
`AgentCapabilities` value. -/
def decodeAgentCapabilities (j : JsonVal) : Option AgentCapabilities :=
  match j with
  | .obj fields =>
    match JsonVal.lookupKey fields "agent_name",
        JsonVal.lookupKey fields "agent_id",
        JsonVal.lookupKey fields "version",
        JsonVal.lookupKey fields "capabilities" with
    | some (.str an), some (.str aid), some (.str v), some (.arr caps) =>
      (decodeCapList caps).map (fun cs => ⟨an, aid, cs, v⟩)
    | _, _, _, _ => none
  | _ => none

/-! ### Supporting lemmas -/

theorem dictInsert_find?_self (k : String) (v : AgentCapabilities)
    (l : List (String × AgentCapabilities)) :
    (dictInsert k v l).find? (fun p => p.1 == k) = some (k, v) := by
  induction l with
  | nil => simp [dictInsert]
  | cons hd tl ih =>
    obtain ⟨k', v'⟩ := hd
    simp only [dictInsert]
    by_cases h : k' = k
    · simp [h, List.find?]
    · simp only [beq_iff_eq, h, if_false]
      rw [List.find?_cons_of_neg _ (by simpa using h)]
      exact ih

theorem dictInsert_keys_of_mem (k : String) (v : AgentCapabilities)
    (l : List (String × AgentCapabilities)) (h : k ∈ l.map Prod.fst) :
    (dictInsert k v l).map Prod.fst = l.map Prod.fst := by
  induction l with
  | nil => simp at h
  | cons hd tl ih =>
    obtain ⟨k', v'⟩ := hd
    simp only [dictInsert, beq_iff_eq]
    by_cases hk : k' = k
    · subst hk; simp
    · rw [if_neg hk]
      simp only [List.map_cons] at h ⊢
      rcases List.mem_cons.mp h with h1 | h1
      · exact absurd h1.symm hk
      · rw [ih h1]

theorem dictInsert_keys_of_not_mem (k : String) (v : AgentCapabilities)
    (l : List (String × AgentCapabilities)) (h : k ∉ l.map Prod.fst) :
    (dictInsert k v l).map Prod.fst = l.map Prod.fst ++ [k] := by
  induction l with
  | nil => simp [dictInsert]
  | cons hd tl ih =>
    obtain ⟨k', v'⟩ := hd
    simp only [List.map_cons, List.mem_cons] at h
    push_neg at h
    simp only [dictInsert, beq_iff_eq]
    rw [if_neg (by exact fun hk => h.1 hk.symm)]
    simp [ih h.2]

/-- The empty registry is well-formed. -/
theorem CapabilityRegistry.WF_empty : CapabilityRegistry.WF ⟨[]⟩ := by
  simp [CapabilityRegistry.WF]

/-- `register_agent` preserves well-formedness: every reachable registry
state has distinct agent ids, as a Python dict does by construction. -/
theorem CapabilityRegistry.WF_register (r : CapabilityRegistry)
    (ac : AgentCapabilities) (h : r.WF) : (r.register_agent ac).WF := by
  unfold CapabilityRegistry.WF CapabilityRegistry.register_agent at *
  by_cases hm : ac.agent_id ∈ r.agents.map Prod.fst
  · rwa [dictInsert_keys_of_mem _ _ _ hm]
  · rw [dictInsert_keys_of_not_mem _ _ _ hm]
    rw [List.nodup_append]
    refine ⟨h, List.nodup_singleton _, ?_⟩
    intro x hx hx1
    rw [List.mem_singleton] at hx1
    exact hm (hx1 ▸ hx)

/-- With distinct keys, membership of a pair determines the assoc lookup. -/
theorem assoc_find?_of_mem (id : String) (ac : AgentCapabilities)
    (l : List (String × AgentCapabilities)) (hwf : (l.map Prod.fst).Nodup)
    (hmem : (id, ac) ∈ l) :
    l.find? (fun p => p.1 == id) = some (id, ac) := by
  induction l with
  | nil => simp at hmem
  | cons hd tl ih =>
    obtain ⟨k', v'⟩ := hd
    simp only [List.map_cons, List.nodup_cons] at hwf
    rcases List.mem_cons.mp hmem with h | h
    · injection h with h1 h2
      subst h1; subst h2
      simp [List.find?]
    · have hne : k' ≠ id := by
        intro he
        exact hwf.1 (he ▸ (List.mem_map.mpr ⟨(id, ac), h, rfl⟩))
      rw [List.find?_cons_of_neg _ (by simpa using hne)]
      exact ih hwf.2 h

/-- With distinct keys, membership of a pair determines the dict lookup. -/
theorem get_agent_capabilities_of_mem (r : CapabilityRegistry)
    (id : String) (ac : AgentCapabilities) (hwf : r.WF)
    (hmem : (id, ac) ∈ r.agents) :
    r.get_agent_capabilities id = some ac := by
  unfold CapabilityRegistry.get_agent_capabilities
  rw [assoc_find?_of_mem id ac r.agents hwf hmem]
  rfl

/-! ### Claim theorems -/

/-- C1: registering an `AgentCapabilities` whose `agent_id` is already
registered replaces the prior entry wholesale — `get_agent_capabilities`
afterwards returns exactly the new value, so no capability of the first
registration remains reachable through the registry. -/
theorem C1_register_replaces (r : CapabilityRegistry) (ac : AgentCapabilities)
    (h : (r.get_agent_capabilities ac.agent_id).isSome) :
    (r.register_agent ac).get_agent_capabilities ac.agent_id = some ac := by
  unfold CapabilityRegistry.register_agent CapabilityRegistry.get_agent_capabilities
  simp [dictInsert_find?_self]

/-- Concrete capabilities and agents used to instantiate the theorems. -/
def wGetWeather : Capability :=
  ⟨"get_weather", .WEATHER, "Get weather for a location", [("location", "str")], ["api"]⟩

def wReview : Capability :=
  ⟨"review_content", .REVIEW, "Review content", [], []⟩

def wAgentA1 : AgentCapabilities := ⟨"Weather Agent", "agent-a", [wGetWeather], "1.0"⟩

def wAgentA2 : AgentCapabilities := ⟨"Review Agent", "agent-a", [wReview], "1.0"⟩

def wAgentB : AgentCapabilities := ⟨"Review Agent B", "agent-b", [wReview], "1.0"⟩

def wReg1 : CapabilityRegistry := CapabilityRegistry.register_agent ⟨[]⟩ wAgentA1

/-- C1 witness: re-registering `agent-a` replaces its entry. -/
theorem C1_register_replaces_witness :
    (wReg1.register_agent wAgentA2).get_agent_capabilities wAgentA2.agent_id
      = some wAgentA2 :=
  C1_register_replaces wReg1 wAgentA2 (by decide)

/-- C3: `can_agent_perform` is false for an unregistered agent id, and for
a registered one it is true exactly when the agent's capability list holds
a capability with that name. -/
theorem C3_can_agent_perform_spec (r : CapabilityRegistry) (id n : String) :
    (r.get_agent_capabilities id = none → r.can_agent_perform id n = false)
    ∧ (∀ ac, r.get_agent_capabilities id = some ac →
        (r.can_agent_perform id n = true ↔ ∃ c ∈ ac.capabilities, c.name = n)) := by
  unfold CapabilityRegistry.can_agent_perform
  refine ⟨fun h => by simp [h], fun ac h => ?_⟩
  rw [h]
  simp [AgentCapabilities.get_capability, List.find?_isSome]

/-- C3 witness: a registered agent can perform its registered capability
and not an unknown one; an unknown agent can perform nothing. -/
theorem C3_can_agent_perform_spec_witness :
    (wReg1.get_agent_capabilities "agent-zzz" = none →
      wReg1.can_agent_perform "agent-zzz" "get_weather" = false)
    ∧ (∀ ac, wReg1.get_agent_capabilities "agent-a" = some ac →
        (wReg1.can_agent_perform "agent-a" "get_weather" = true ↔
          ∃ c ∈ ac.capabilities, c.name = "get_weather")) :=
  ⟨(C3_can_agent_perform_spec wReg1 "agent-zzz" "get_weather").1,
   (C3_can_agent_perform_spec wReg1 "agent-a" "get_weather").2⟩

/-- C2: `find_agent_for_capability` returns the id of the earliest
registered agent (in registration order) having a capability with exactly
the given name, and `none` when no registered agent has one. -/
theorem C2_find_agent_earliest (r : CapabilityRegistry) (n : String) :
    (∀ a, r.find_agent_for_capability n = some a ↔
        ∃ e pre post, r.agents = pre ++ e :: post ∧ e.1 = a ∧
          (e.2.get_capability n).isSome ∧
          ∀ q ∈ pre, q.2.get_capability n = none)
    ∧ (r.find_agent_for_capability n = none ↔
        ∀ q ∈ r.agents, q.2.get_capability n = none) := by
  unfold CapabilityRegistry.find_agent_for_capability
  constructor
  · intro a
    rw [Option.map_eq_some']
    constructor
    · rintro ⟨e, he, rfl⟩
      rw [List.find?_eq_some] at he
      obtain ⟨hp, pre, post, heq, hall⟩ := he
      refine ⟨e, pre, post, heq, rfl, hp, fun q hq => ?_⟩
      have := hall q hq
      simpa [Option.not_isSome_iff_eq_none] using this
    · rintro ⟨e, pre, post, heq, rfl, hp, hall⟩
      refine ⟨e, ?_, rfl⟩
      rw [List.find?_eq_some]
      exact ⟨hp, pre, post, heq, fun q hq => by simp [hall q hq]⟩
  · rw [Option.map_eq_none', List.find?_eq_none]
    constructor
    · intro hall q hq
      have := hall q hq
      simpa [Option.not_isSome_iff_eq_none] using this
    · intro hall q hq
      simp [hall q hq]

def wRegAB : CapabilityRegistry := (wReg1.register_agent wAgentA2).register_agent wAgentB

/-- C2 witness: in a registry holding `agent-a` then `agent-b`, both with
`review_content`, the earliest registered agent wins, and a name nobody
has resolves to `none`. -/
theorem C2_find_agent_earliest_witness :
    (wRegAB.find_agent_for_capability "review_content" = some "agent-a" ↔
        ∃ e pre post, wRegAB.agents = pre ++ e :: post ∧ e.1 = "agent-a" ∧
          (e.2.get_capability "review_content").isSome ∧
          ∀ q ∈ pre, q.2.get_capability "review_content" = none)
    ∧ (wRegAB.find_agent_for_capability "nonexistent" = none ↔
        ∀ q ∈ wRegAB.agents, q.2.get_capability "nonexistent" = none) :=
  ⟨(C2_find_agent_earliest wRegAB "review_content").1 "agent-a",
   (C2_find_agent_earliest wRegAB "nonexistent").2⟩

/-- C4: `get_capability` returns the first capability in insertion order
whose name equals the argument, and signals a missing name with `none`
(an `Option` result — the function is total, it cannot raise). -/
theorem C4_get_capability_first (a : AgentCapabilities) (n : String) :
    (∀ c, a.get_capability n = some c ↔
        ∃ pre post, a.capabilities = pre ++ c :: post ∧ c.name = n ∧
          ∀ c' ∈ pre, c'.name ≠ n)
    ∧ (a.get_capability n = none ↔ ∀ c ∈ a.capabilities, c.name ≠ n) := by
  unfold AgentCapabilities.get_capability
  constructor
  · intro c
    rw [List.find?_eq_some]
    constructor
    · rintro ⟨hp, pre, post, heq, hall⟩
      refine ⟨pre, post, heq, by simpa using hp, fun c' hc' => ?_⟩
      have := hall c' hc'
      simpa using this
    · rintro ⟨pre, post, heq, hn, hall⟩
      exact ⟨by simpa using hn, pre, post, heq, fun c' hc' => by simp [hall c' hc']⟩
  · rw [List.find?_eq_none]
    constructor
    · intro hall c hc
      simpa using hall c hc
    · intro hall c hc
      simpa using hall c hc

/-- C4 witness: the first of two same-named capabilities is returned, and
an unknown name yields `none`. -/
theorem C4_get_capability_first_witness :
    (let dup : AgentCapabilities :=
      ⟨"A", "agent-dup", [wReview, ⟨"review_content", .ANALYSIS, "dup", [], []⟩], "1.0"⟩
     dup.get_capability "review_content" = some wReview ↔
        ∃ pre post,
          [wReview, ⟨"review_content", .ANALYSIS, "dup", [], []⟩] = pre ++ wReview :: post ∧
          wReview.name = "review_content" ∧ ∀ c' ∈ pre, c'.name ≠ "review_content")
    ∧ (wAgentA1.get_capability "unknown" = none ↔
        ∀ c ∈ wAgentA1.capabilities, c.name ≠ "unknown") :=
  ⟨(C4_get_capability_first
      ⟨"A", "agent-dup", [wReview, ⟨"review_content", .ANALYSIS, "dup", [], []⟩], "1.0"⟩
      "review_content").1 wReview,
   (C4_get_capability_first wAgentA1 "unknown").2⟩

/-- C5: `get_capabilities_by_type` returns exactly the subsequence of the
capability list whose kind equals the argument — an order-preserving
sublist, every element of the matching kind, keeping every matching
occurrence (counted with multiplicity), and empty when nothing matches. -/
theorem C5_get_capabilities_by_type_spec (a : AgentCapabilities)
    (k : CapabilityType) :
    (a.get_capabilities_by_type k).Sublist a.capabilities
    ∧ (∀ c ∈ a.get_capabilities_by_type k, c.capability_type = k)
    ∧ (∀ c, c.capability_type = k →
        (a.get_capabilities_by_type k).count c = a.capabilities.count c)
    ∧ ((∀ c ∈ a.capabilities, c.capability_type ≠ k) →
        a.get_capabilities_by_type k = []) := by
  unfold AgentCapabilities.get_capabilities_by_type
  refine ⟨List.filter_sublist _, ?_, ?_, ?_⟩
  · intro c hc
    simpa using (List.mem_filter.mp hc).2
  · intro c hc
    exact List.count_filter (by simpa using hc)
  · intro hall
    rw [List.filter_eq_nil_iff]
    intro c hc
    simpa using hall c hc

/-- C5 witness: `wAgentA1` has one WEATHER capability and no REVIEW ones. -/
theorem C5_get_capabilities_by_type_spec_witness :
    ((wAgentA1.get_capabilities_by_type .WEATHER).Sublist wAgentA1.capabilities
      ∧ (∀ c ∈ wAgentA1.get_capabilities_by_type .WEATHER, c.capability_type = .WEATHER)
      ∧ (∀ c, c.capability_type = .WEATHER →
          (wAgentA1.get_capabilities_by_type .WEATHER).count c
            = wAgentA1.capabilities.count c)
      ∧ ((∀ c ∈ wAgentA1.capabilities, c.capability_type ≠ .WEATHER) →
          wAgentA1.get_capabilities_by_type .WEATHER = []))
    ∧ ((∀ c ∈ wAgentA1.capabilities, c.capability_type ≠ .REVIEW) →
        wAgentA1.get_capabilities_by_type .REVIEW = []) :=
  ⟨C5_get_capabilities_by_type_spec wAgentA1 .WEATHER,
   (C5_get_capabilities_by_type_spec wAgentA1 .REVIEW).2.2.2⟩

/-- C6: `get_all_capabilities_by_type` contains an agent id exactly when
that agent has at least one capability of the kind (never an entry with an
empty list), entries follow registration order, each entry's list is the
agent's own matching list, and the empty registry yields an empty map. -/
theorem C6_get_all_capabilities_by_type_spec (r : CapabilityRegistry)
    (k : CapabilityType) :
    ((r.get_all_capabilities_by_type k).map Prod.fst).Sublist (r.agents.map Prod.fst)
    ∧ (∀ p ∈ r.get_all_capabilities_by_type k, p.2 ≠ [])
    ∧ (∀ id caps, (id, caps) ∈ r.get_all_capabilities_by_type k →
        ∃ ac, (id, ac) ∈ r.agents ∧ caps = ac.get_capabilities_by_type k ∧ caps ≠ [])
    ∧ (∀ id ac, (id, ac) ∈ r.agents → ac.get_capabilities_by_type k ≠ [] →
        (id, ac.get_capabilities_by_type k) ∈ r.get_all_capabilities_by_type k)
    ∧ (r.agents = [] → r.get_all_capabilities_by_type k = []) := by
  unfold CapabilityRegistry.get_all_capabilities_by_type
  refine ⟨?_, ?_, ?_, ?_, ?_⟩
  · induction r.agents with
    | nil => simp
    | cons hd tl ih =>
      simp only [List.filterMap_cons]
      by_cases he : (hd.2.get_capabilities_by_type k).isEmpty
      · rw [if_pos he]
        simp only [List.map_cons]
        exact ih.cons _
      · rw [if_neg he]
        simp only [List.map_cons]
        exact ih.cons₂ _
  · intro p hp
    rw [List.mem_filterMap] at hp
    obtain ⟨q, hq, hpq⟩ := hp
    by_cases he : (q.2.get_capabilities_by_type k).isEmpty
    · simp [he] at hpq
    · rw [if_neg he] at hpq
      injection hpq with hpq
      subst hpq
      simpa [List.isEmpty_iff] using he
  · intro id caps hmem
    rw [List.mem_filterMap] at hmem
    obtain ⟨q, hq, hpq⟩ := hmem
    by_cases he : (q.2.get_capabilities_by_type k).isEmpty
    · simp [he] at hpq
    · rw [if_neg he] at hpq
      injection hpq with hpq
      injection hpq with h1 h2
      subst h1; subst h2
      exact ⟨q.2, hq, rfl, by simpa [List.isEmpty_iff] using he⟩
  · intro id ac hmem hne
    rw [List.mem_filterMap]
    refine ⟨(id, ac), hmem, ?_⟩
    rw [if_neg (by simpa [List.isEmpty_iff] using hne)]
  · intro h
    rw [h]
    rfl

/-- C6 witness: the registry with `agent-a` (REVIEW) and `agent-b` (REVIEW)
reports both for REVIEW and keeps the registration-order and nonemptiness
properties; the empty registry yields the empty map. -/
theorem C6_get_all_capabilities_by_type_spec_witness :
    ((∀ p ∈ wRegAB.get_all_capabilities_by_type .REVIEW, p.2 ≠ [])
      ∧ (∀ id ac, (id, ac) ∈ wRegAB.agents →
          ac.get_capabilities_by_type .REVIEW ≠ [] →
          (id, ac.get_capabilities_by_type .REVIEW)
            ∈ wRegAB.get_all_capabilities_by_type .REVIEW))
    ∧ ((CapabilityRegistry.mk []).agents = [] →
        (CapabilityRegistry.mk []).get_all_capabilities_by_type .WEATHER = []) :=
  ⟨⟨(C6_get_all_capabilities_by_type_spec wRegAB .REVIEW).2.1,
    (C6_get_all_capabilities_by_type_spec wRegAB .REVIEW).2.2.2.1⟩,
   (C6_get_all_capabilities_by_type_spec ⟨[]⟩ .WEATHER).2.2.2.2⟩

theorem CapabilityType.ofValue_value (t : CapabilityType) :
    CapabilityType.ofValue t.value = some t := by
  cases t <;> rfl

theorem decodeParams_map (l : List (String × String)) :
    decodeParams (l.map (fun p => (p.1, .str p.2))) = some l := by
  induction l with
  | nil => rfl
  | cons hd tl ih =>
    obtain ⟨k, v⟩ := hd
    simp [decodeParams, ih]

theorem decodeStrList_map (l : List String) :
    decodeStrList (l.map .str) = some l := by
  induction l with
  | nil => rfl
  | cons hd tl ih => simp [decodeStrList, ih]

theorem decodeCapability_to_dict (c : Capability) :
    decodeCapability c.to_dict = some c := by
  obtain ⟨n, t, d, ps, perms⟩ := c
  simp [Capability.to_dict, decodeCapability, JsonVal.lookupKey,
    CapabilityType.ofValue_value, decodeParams_map, decodeStrList_map]

theorem decodeCapList_map (l : List Capability) :
    decodeCapList (l.map Capability.to_dict) = some l := by
  induction l with
  | nil => rfl
  | cons hd tl ih => simp [decodeCapList, decodeCapability_to_dict, ih]

/-- C7: the structured form round-trips — decoding the dictionary built by
`to_dict` (keys `name`, `type`, `description`, `parameters`,
`required_permissions`) recovers every capability's fields exactly, and
decoding an agent's structured form recovers the whole value with the
capability list in insertion order. -/
theorem C7_to_dict_round_trip (c : Capability) (a : AgentCapabilities) :
    decodeCapability c.to_dict = some c
    ∧ decodeAgentCapabilities a.to_dict = some a := by
  refine ⟨decodeCapability_to_dict c, ?_⟩
  obtain ⟨an, aid, caps, v⟩ := a
  simp [AgentCapabilities.to_dict, decodeAgentCapabilities, JsonVal.lookupKey,
    decodeCapList_map]

theorem find?_map_update (ref : Nat) (c : Capability)
    (l : List (Nat × AgentCapabilities)) :
    ((l.map (fun p => if p.1 == ref then (p.1, p.2.add_capability c) else p)).find?
        (fun p => p.1 == ref)).map Prod.snd
      = ((l.find? (fun p => p.1 == ref)).map Prod.snd).map
          (fun ac => ac.add_capability c) := by
  induction l with
  | nil => rfl
  | cons hd tl ih =>
    obtain ⟨r', ac'⟩ := hd
    by_cases hr : r' = ref
    · subst hr
      simp [List.find?]
    · simp only [List.map_cons]
      rw [if_neg (by simpa using hr)]
      rw [List.find?_cons_of_neg _ (by simpa using hr),
        List.find?_cons_of_neg _ (by simpa using hr)]
      exact ih

theorem deref_add_capability_at (h : Heap) (ref : Nat) (c : Capability) :
    (h.add_capability_at ref c).deref ref
      = (h.deref ref).map (fun ac => ac.add_capability c) := by
  unfold Heap.add_capability_at Heap.deref
  exact find?_map_update ref c h.cells

/-- C8: the registry holds a reference to the caller's object, so an
`add_capability` performed after registration is visible through the
registry — `get_agent_capabilities` returns the appended object, and
`can_agent_perform` answers true for the newly appended name. -/
theorem C8_later_append_visible (r : HeapRegistry) (h : Heap)
    (id : String) (ref : Nat) (ac : AgentCapabilities) (c : Capability)
    (hfind : r.agents.find? (fun p => p.1 == id) = some (id, ref))
    (hderef : h.deref ref = some ac) :
    r.get_agent_capabilities (h.add_capability_at ref c) id
        = some (ac.add_capability c)
    ∧ r.can_agent_perform (h.add_capability_at ref c) id c.name = true := by
  have hget : r.get_agent_capabilities (h.add_capability_at ref c) id
      = some (ac.add_capability c) := by
    unfold HeapRegistry.get_agent_capabilities
    rw [hfind]
    simp only [Option.map_some']
    rw [deref_add_capability_at, hderef]
    rfl
  refine ⟨hget, ?_⟩
  unfold HeapRegistry.can_agent_perform
  rw [hget]
  unfold AgentCapabilities.get_capability AgentCapabilities.add_capability
  rw [List.find?_isSome]
  exact ⟨c, by simp, by simp⟩

def wHeap : Heap := ⟨[(0, wAgentA1)]⟩

def wHeapReg : HeapRegistry := ⟨[("agent-a", 0)]⟩

/-- C8 witness: after registering `agent-a` and then appending
`review_content` to its (shared) object, the registry sees the new
capability. -/
theorem C8_later_append_visible_witness :
    wHeapReg.get_agent_capabilities (wHeap.add_capability_at 0 wReview) "agent-a"
        = some (wAgentA1.add_capability wReview)
    ∧ wHeapReg.can_agent_perform (wHeap.add_capability_at 0 wReview)
        "agent-a" wReview.name = true :=
  C8_later_append_visible wHeapReg wHeap "agent-a" 0 wAgentA1 wReview
    (by decide) (by decide)

theorem dictInsert_eq_map_of_mem (k : String) (v : AgentCapabilities)
    (l : List (String × AgentCapabilities)) (hnd : (l.map Prod.fst).Nodup)
    (h : k ∈ l.map Prod.fst) :
    dictInsert k v l = l.map (fun p => if p.1 == k then (k, v) else p) := by
  induction l with
  | nil => simp at h
  | cons hd tl ih =>
    obtain ⟨k', v'⟩ := hd
    simp only [List.map_cons, List.nodup_cons] at hnd
    simp only [dictInsert, List.map_cons]
    by_cases hk : k' = k
    · subst hk
      rw [if_pos (by simp), if_pos (by simp)]
      congr 1
      have hnotin : ∀ p ∈ tl, (fun p => if p.1 == k' then (k', v) else p) p = id p := by
        intro p hp
        have : p.1 ≠ k' := by
          intro he
          exact hnd.1 (he ▸ List.mem_map.mpr ⟨p, hp, rfl⟩)
        simp [this]
      rw [List.map_congr_left hnotin, List.map_id]
    · rw [if_neg (by simpa using hk), if_neg (by simpa using hk)]
      simp only [List.map_cons] at h
      rcases List.mem_cons.mp h with h1 | h1
      · exact absurd h1.symm hk
      · rw [ih hnd.2 h1]

/-- C9: re-registering an already present agent id keeps the entry at the
position of its first registration — the agents list is the old list with
just that entry's value replaced, so the iteration order of later scans
(`find_agent_for_capability`, `get_all_capabilities_by_type`) is
unchanged. -/
theorem C9_reregister_keeps_position (r : CapabilityRegistry)
    (ac : AgentCapabilities) (hwf : r.WF)
    (hmem : ac.agent_id ∈ r.agents.map Prod.fst) :
    (r.register_agent ac).agents
        = r.agents.map (fun p => if p.1 == ac.agent_id then (ac.agent_id, ac) else p)
    ∧ (r.register_agent ac).agents.map Prod.fst = r.agents.map Prod.fst := by
  unfold CapabilityRegistry.register_agent
  exact ⟨dictInsert_eq_map_of_mem _ _ _ hwf hmem,
    dictInsert_keys_of_mem _ _ _ hmem⟩

/-- C9 witness: register `agent-a`, then `agent-b`, then `agent-a` again —
the key order stays `agent-a`, `agent-b`, and the earliest-registered scan
still resolves `agent-a` first. -/
theorem C9_reregister_keeps_position_witness :
    ((wRegAB.register_agent wAgentA1).agents
        = wRegAB.agents.map
            (fun p => if p.1 == wAgentA1.agent_id then (wAgentA1.agent_id, wAgentA1) else p)
      ∧ (wRegAB.register_agent wAgentA1).agents.map Prod.fst
          = wRegAB.agents.map Prod.fst)
    ∧ (wRegAB.register_agent wAgentA1).find_agent_for_capability "get_weather"
        = some "agent-a" :=
  ⟨C9_reregister_keeps_position wRegAB wAgentA1 (by unfold CapabilityRegistry.WF; decide) (by decide), by decide⟩

/-- C10: whatever id `find_agent_for_capability` returns can in fact
perform the capability, and it returns `none` exactly when
`can_agent_perform` is false for every registered agent id. -/
theorem C10_find_can_consistency (r : CapabilityRegistry) (n : String)
    (hwf : r.WF) :
    (∀ a, r.find_agent_for_capability n = some a → r.can_agent_perform a n = true)
    ∧ (r.find_agent_for_capability n = none ↔
        ∀ a ∈ r.agents.map Prod.fst, r.can_agent_perform a n = false) := by
  constructor
  · intro a hfind
    unfold CapabilityRegistry.find_agent_for_capability at hfind
    rw [Option.map_eq_some'] at hfind
    obtain ⟨p, hp, rfl⟩ := hfind
    have hmem := List.mem_of_find?_eq_some hp
    have hps := List.find?_some hp
    have hget : r.get_agent_capabilities p.1 = some p.2 :=
      get_agent_capabilities_of_mem r p.1 p.2 hwf (by simpa using hmem)
    unfold CapabilityRegistry.can_agent_perform
    rw [hget]
    simpa using hps
  · constructor
    · intro hnone a hmem
      unfold CapabilityRegistry.find_agent_for_capability at hnone
      rw [Option.map_eq_none', List.find?_eq_none] at hnone
      unfold CapabilityRegistry.can_agent_perform
      cases hga : r.get_agent_capabilities a with
      | none => rfl
      | some ac =>
        unfold CapabilityRegistry.get_agent_capabilities at hga
        rw [Option.map_eq_some'] at hga
        obtain ⟨q, hq, hq2⟩ := hga
        have hmemq := List.mem_of_find?_eq_some hq
        have hqn := hnone q hmemq
        subst hq2
        simpa using hqn
    · intro hall
      unfold CapabilityRegistry.find_agent_for_capability
      rw [Option.map_eq_none', List.find?_eq_none]
      intro q hq
      have hkey : q.1 ∈ r.agents.map Prod.fst := List.mem_map.mpr ⟨q, hq, rfl⟩
      have hcan := hall q.1 hkey
      unfold CapabilityRegistry.can_agent_perform at hcan
      have hget : r.get_agent_capabilities q.1 = some q.2 :=
        get_agent_capabilities_of_mem r q.1 q.2 hwf (by simpa using hq)
      rw [hget] at hcan
      simpa using hcan

/-- C10 witness: in the two-agent registry, the agent found for
`review_content` can perform it, and the `none` result for an unknown name
coincides with every agent answering false. -/
theorem C10_find_can_consistency_witness :
    (∀ a, wRegAB.find_agent_for_capability "review_content" = some a →
        wRegAB.can_agent_perform a "review_content" = true)
    ∧ (wRegAB.find_agent_for_capability "nonexistent" = none ↔
        ∀ a ∈ wRegAB.agents.map Prod.fst,
          wRegAB.can_agent_perform a "nonexistent" = false) :=
  ⟨(C10_find_can_consistency wRegAB "review_content" (by unfold CapabilityRegistry.WF; decide)).1,
   (C10_find_can_consistency wRegAB "nonexistent" (by unfold CapabilityRegistry.WF; decide)).2⟩
